import Mathlib

/-!
Shallow embedding of the subtitle-generation core of the repository:
word grouping (`_create_segments_from_words`), segment merging
(`_merge_short_segments`), the SRT timestamp codec (`_format_timestamp`),
SRT serialization (`generate_srt`), and the batched translation layer
(`translate_segments`, `_translate_batch_with_retry`).

Times are modelled as rationals (the Python code uses floats; every claim
under scrutiny is about control flow and exact arithmetic on the sample
values, all of which are dyadic and hence exact). Python `str` values are
modelled as `String`, `len` as `String.length` (both count code points).
-/

/-- `TranscriptSegment` dataclass from `subtitle_generator.py`:
text plus start/end offsets in seconds and a confidence score. -/
structure TranscriptSegment where
  text : String
  start_time : ℚ
  end_time : ℚ
  confidence : ℚ
deriving DecidableEq, Repr

/-- A word-level token from the recognizer: `word_info.word` together with
its start/end offsets already converted to seconds. -/
structure Word where
  word : String
  start : ℚ
  endT : ℚ
deriving DecidableEq, Repr

/-! ## WordGrouper: `_create_segments_from_words` (src/src/speech_recognizer.py) -/

/-- The sentence-terminal marks used by `_create_segments_from_words`. -/
def sentence_endings : List Char := ['。', '！', '？', '、']

/-- `any(text.endswith(punct) for punct in sentence_endings)`; for a
single-character pattern, `str.endswith` holds exactly when the last
character is that character. -/
def endsWithMark (text : String) : Bool :=
  sentence_endings.any (fun punct => text.data.getLast? = some punct)

/-- The `should_finalize` if/elif chain of `_create_segments_from_words`,
as written in the source (first match wins). -/
def shouldFinalize (duration : ℚ) (text : String) (max_duration : ℚ)
    (max_chars : ℕ) : Bool :=
  if duration ≥ max_duration then true
  else if text.length ≥ max_chars then true
  else if endsWithMark text then
    if text.length > 10 ∨ duration > 1 then true else false
  else false

/-- Loop state of `_create_segments_from_words`: emitted segments, the
buffered word texts, and the running start/end offsets (None when the
accumulator is empty). -/
structure GroupState where
  segments : List TranscriptSegment
  current_words : List String
  current_start : Option ℚ
  current_end : Option ℚ
deriving DecidableEq, Repr

/-- One iteration of the `for word_info in word_info_list` loop. -/
def groupStep (max_duration : ℚ) (max_chars : ℕ) (st : GroupState)
    (w : Word) : GroupState :=
  let cs : ℚ := st.current_start.getD w.start
  let words := st.current_words ++ [w.word]
  let ce : ℚ := w.endT
  let duration := ce - cs
  let text := String.join words
  if shouldFinalize duration text max_duration max_chars then
    { segments := st.segments ++ [⟨text, cs, ce, 1⟩],
      current_words := [], current_start := none, current_end := none }
  else
    { segments := st.segments, current_words := words,
      current_start := some cs, current_end := some ce }

/-- `_create_segments_from_words`: fold the loop over the tokens, then
flush the remaining accumulator (the source appends the tail segment
whenever `current_words` is non-empty). -/
def createSegmentsFromWords (words : List Word) (max_duration : ℚ)
    (max_chars : ℕ) : List TranscriptSegment :=
  if words.isEmpty then []
  else
    let st := words.foldl (groupStep max_duration max_chars)
      ⟨[], [], none, none⟩
    if st.current_words.isEmpty then st.segments
    else st.segments ++
      [⟨String.join st.current_words, st.current_start.getD 0,
        st.current_end.getD 0, 1⟩]

/-! ## SegmentMerger: `_merge_short_segments` (subtitle_generator.py) -/

/-- Loop state of `_merge_short_segments`: the `merged` output list and
the `current` accumulator (None before the first segment). -/
structure MergeState where
  merged : List TranscriptSegment
  current : Option TranscriptSegment
deriving DecidableEq, Repr

/-- One iteration of the `for segment in segments` loop of
`_merge_short_segments`, including the `should_merge` condition. -/
def mergeStep (min_duration : ℚ) (max_chars : ℕ) (st : MergeState)
    (segment : TranscriptSegment) : MergeState :=
  match st.current with
  | none =>
    { merged := st.merged,
      current := some ⟨segment.text, segment.start_time, segment.end_time,
        segment.confidence⟩ }
  | some cur =>
    let duration := cur.end_time - cur.start_time
    let combined_text := cur.text ++ " " ++ segment.text
    if duration < min_duration ∨
        (combined_text.length ≤ max_chars ∧
          segment.start_time - cur.end_time < 1) then
      { merged := st.merged,
        current := some { cur with
          text := combined_text
          end_time := segment.end_time } }
    else
      { merged := st.merged ++ [cur],
        current := some ⟨segment.text, segment.start_time, segment.end_time,
          segment.confidence⟩ }

/-- `_merge_short_segments`: empty guard, fold of the loop, then the
final `merged.append(current)` flush. -/
def mergeShortSegments (min_duration : ℚ) (max_chars : ℕ)
    (segments : List TranscriptSegment) : List TranscriptSegment :=
  if segments.isEmpty then []
  else
    let st := segments.foldl (mergeStep min_duration max_chars) ⟨[], none⟩
    match st.current with
    | none => st.merged
    | some current => st.merged ++ [current]

/-- Direct-recursion rendering of the merge pass as the spec describes it:
a single left-to-right sweep carrying the current accumulator, emitting it
when the merge condition fails and flushing it at the end. Used to state
the refinement theorem for the merge rule. -/
def mergeSweep (min_duration : ℚ) (max_chars : ℕ) :
    TranscriptSegment → List TranscriptSegment → List TranscriptSegment
  | cur, [] => [cur]
  | cur, segment :: rest =>
    let duration := cur.end_time - cur.start_time
    let combined_text := cur.text ++ " " ++ segment.text
    if duration < min_duration ∨
        (combined_text.length ≤ max_chars ∧
          segment.start_time - cur.end_time < 1) then
      mergeSweep min_duration max_chars
        { cur with
          text := combined_text
          end_time := segment.end_time }
        rest
    else
      cur :: mergeSweep min_duration max_chars
        ⟨segment.text, segment.start_time, segment.end_time,
          segment.confidence⟩ rest

/-! ## Timestamp codec: `_format_timestamp` (subtitle_generator.py) -/

/-- Python float floor division `a // b` (result is a float). -/
def pyFloorDiv (a b : ℚ) : ℚ := ((a / b).floor : ℤ)

/-- Python float modulo `a % b = a - b * (a // b)`. -/
def pyMod (a b : ℚ) : ℚ := a - b * pyFloorDiv a b

/-- Python `int()` on a float: truncation toward zero. -/
def pyTrunc (a : ℚ) : ℤ := if a < 0 then -(-a).floor else a.floor

/-- Zero-pad a digit string on the left to width `w`. -/
def zeroPadStr (w : ℕ) (s : String) : String :=
  if s.length < w then String.mk (List.replicate (w - s.length) '0') ++ s
  else s

/-- Python `f"{n:0wd}"`: zero-padded decimal, sign leading. -/
def pyPad0 (w : ℕ) (n : ℤ) : String :=
  if n < 0 then "-" ++ zeroPadStr (w - 1) (toString (-n))
  else zeroPadStr w (toString n)

/-- `_format_timestamp`: `HH:MM:SS,mmm` with the exact arithmetic of the
source (`int(seconds // 3600)`, `int((seconds % 3600) // 60)`,
`int(seconds % 60)`, `int((seconds % 1) * 1000)`). -/
def formatTimestamp (seconds : ℚ) : String :=
  let hours := pyTrunc (pyFloorDiv seconds 3600)
  let minutes := pyTrunc (pyFloorDiv (pyMod seconds 3600) 60)
  let secs := pyTrunc (pyMod seconds 60)
  let millisecs := pyTrunc (pyMod seconds 1 * 1000)
  pyPad0 2 hours ++ ":" ++ pyPad0 2 minutes ++ ":" ++ pyPad0 2 secs ++
    "," ++ pyPad0 3 millisecs

/-- The timestamp format as the spec words it: whole seconds decomposed
by integer floor division/modulo into hours, minutes and seconds,
milliseconds the truncation of the fractional-second component times
1000, each field zero-padded (hours to 2 digits but unbounded). -/
def specTimestamp (s : ℚ) : String :=
  let n : ℤ := ⌊s⌋
  let ms : ℤ := ⌊(s - (n : ℚ)) * 1000⌋
  pyPad0 2 (n / 3600) ++ ":" ++ pyPad0 2 (n % 3600 / 60) ++ ":" ++
    pyPad0 2 (n % 60) ++ "," ++ pyPad0 3 ms

/-! ## Serializer: `generate_srt` (subtitle_generator.py) -/

/-- One SRT block as written by the `generate_srt` loop body: index line,
timestamp line, text line, blank separator line. -/
def cueBlock (i : ℕ) (segment : TranscriptSegment) : String :=
  toString i ++ "\n" ++
    formatTimestamp segment.start_time ++ " --> " ++
    formatTimestamp segment.end_time ++ "\n" ++
    segment.text ++ "\n" ++ "\n"

/-- The text written by the `for i, segment in enumerate(..., start=1)`
loop, for a given (already merged) segment list. -/
def srtText (segments : List TranscriptSegment) : String :=
  String.join ((segments.enumFrom 1).map (fun p => cueBlock p.1 p.2))

/-- The full file content produced by `generate_srt`: the input segments
are first passed through `_merge_short_segments`, then serialized. -/
def generateSrtContent (min_duration : ℚ) (max_chars : ℕ)
    (segments : List TranscriptSegment) : String :=
  srtText (mergeShortSegments min_duration max_chars segments)

/-! ## Translator: `translate_segments` and `_translate_batch_with_retry`
(src/src/translator.py). The external Google client is modelled as a
collaborator function; the retry loop additionally records how many
collaborator invocations happened and which backoff sleeps ran. -/

/-- Python `range(start, stop, step)` for a positive step, with explicit
fuel so the recursion is structural (`stop - start` steps always
suffice since `start` grows by `step ≥ 1` per iteration). -/
def rangeFrom (step : ℕ) : ℕ → ℕ → ℕ → List ℕ
  | 0, _, _ => []
  | fuel + 1, start, stop =>
    if 0 < step ∧ start < stop then
      start :: rangeFrom step fuel (start + step) stop
    else []

/-- Python `range(start, stop, step)` (the source calls it as
`range(0, len(segments), batch_size)`). -/
def rangeStep (start stop step : ℕ) : List ℕ :=
  rangeFrom step (stop - start) start stop

/-- `translate_segments` on the success path: chunk the segments by
`batch_size` exactly as the source's `range` loop and slicing do, call the
collaborator on each chunk's texts, and zip the translations back onto the
chunk. Returns the list of collaborator calls (each the list of texts
sent) together with the reassembled segments. -/
def translateSegments (collab : List String → List String)
    (batchSize : ℕ) (segments : List TranscriptSegment) :
    List (List String) × List TranscriptSegment :=
  if segments.isEmpty then ([], [])
  else
    (rangeStep 0 segments.length batchSize).foldl
      (fun acc i =>
        let batch := (segments.drop i).take batchSize
        let texts := batch.map (fun seg => seg.text)
        let translated_texts := collab texts
        let newSegs := (batch.zip translated_texts).map
          (fun p => TranscriptSegment.mk p.2 p.1.start_time p.1.end_time
            p.1.confidence)
        (acc.1 ++ [texts], acc.2 ++ newSegs))
      ([], [])

/-- Fuel-driven worker for `specChunks` (`l.length` steps always
suffice since each chunk removes at least one element). -/
def chunksGo (bs : ℕ) : ℕ → List α → List (List α)
  | 0, _ => []
  | _ + 1, [] => []
  | fuel + 1, a :: t =>
    if 0 < bs then (a :: t).take bs :: chunksGo bs fuel ((a :: t).drop bs)
    else []

/-- Contiguous chunks of at most `bs` elements, order preserved, last
chunk possibly shorter — the partition the spec describes. -/
def specChunks (bs : ℕ) (l : List α) : List (List α) :=
  chunksGo bs l.length l

/-- Contiguous-substring test on character lists (Python's `in`). -/
def hasSubstr (need : List Char) : List Char → Bool
  | [] => need.isEmpty
  | c :: t => need.isPrefixOf (c :: t) || hasSubstr need t

/-- ASCII lower-casing of one character (`str.lower()` restricted to
the ASCII range, which is all the quota heuristic ever matches on). -/
def lowerChar (c : Char) : Char :=
  if 65 ≤ c.toNat ∧ c.toNat ≤ 90 then Char.ofNat (c.toNat + 32) else c

/-- `str.lower()`. -/
def strLower (s : String) : String := String.mk (s.data.map lowerChar)

/-- The quota test of `_translate_batch_with_retry`:
`'quota' in str(e).lower() or 'limit' in str(e).lower()`. -/
def quotaMatch (msg : String) : Bool :=
  let error_msg := strLower msg
  hasSubstr "quota".data error_msg.data ||
    hasSubstr "limit".data error_msg.data

/-- Terminal outcome of `_translate_batch_with_retry`. -/
inductive TransResult where
  | success (texts : List String)
  | quotaExceeded (msg : String)
  | translationFailure (msg : String)
deriving DecidableEq, Repr

/-- Observable trace of one `_translate_batch_with_retry` run: how many
times the collaborator was invoked, which backoff sleeps were performed
(in order, in seconds), and the outcome. -/
structure RetryTrace where
  calls : ℕ
  sleeps : List ℕ
  result : TransResult
deriving DecidableEq, Repr

/-- The `for attempt in range(max_retries)` loop of
`_translate_batch_with_retry`. `call attempt` models one invocation of
the external client: either the extracted translations or the raised
exception's message. `remaining` is the number of loop iterations still
to run (`maxRetries - attempt`, kept explicit so the recursion is
structural); when it reaches 0 the loop falls through to the final
`raise TranslationError("Translation failed: max retries exceeded")`. -/
def retryLoop (call : ℕ → Except String (List String)) (maxRetries : ℕ) :
    (remaining attempt calls : ℕ) → (sleeps : List ℕ) → RetryTrace
  | 0, _, calls, sleeps =>
    ⟨calls, sleeps, TransResult.translationFailure
      "Translation failed: max retries exceeded"⟩
  | remaining + 1, attempt, calls, sleeps =>
    match call attempt with
    | Except.ok results => ⟨calls + 1, sleeps, TransResult.success results⟩
    | Except.error e =>
      if quotaMatch e then
        ⟨calls + 1, sleeps, TransResult.quotaExceeded
          ("Google Translate API quota exceeded: " ++ e)⟩
      else if attempt = maxRetries - 1 then
        ⟨calls + 1, sleeps, TransResult.translationFailure
          ("Translation failed after " ++ toString maxRetries ++
            " attempts: " ++ e)⟩
      else
        retryLoop call maxRetries remaining (attempt + 1) (calls + 1)
          (sleeps ++ [2 ^ attempt * 1])

/-- `_translate_batch_with_retry`, started at attempt 0 with the full
`maxRetries` iterations ahead of it. -/
def translateBatchWithRetry (call : ℕ → Except String (List String))
    (maxRetries : ℕ) : RetryTrace :=
  retryLoop call maxRetries maxRetries 0 0 []

/-! ## Heap model of `_merge_short_segments` for the frame claim.
Python objects live in a store indexed by allocation order; reading a
field dereferences, `TranscriptSegment(...)` allocates a fresh object,
and `current.text = ...` / `current.end_time = ...` mutate in place. -/

/-- The object store: index = reference. -/
abbrev Store := List TranscriptSegment

/-- Dereference (out-of-range reads return a dummy; the source never
reads out of range). -/
def readCue (σ : Store) (r : ℕ) : TranscriptSegment :=
  σ.getD r ⟨"", 0, 0, 0⟩

/-- Allocate a fresh object, returning the new store and its reference. -/
def allocCue (σ : Store) (c : TranscriptSegment) : Store × ℕ :=
  (σ ++ [c], σ.length)

/-- Loop state of the heap-level `_merge_short_segments`. -/
structure MergeHeapState where
  store : Store
  merged : List ℕ
  current : Option ℕ
deriving DecidableEq, Repr

/-- One loop iteration at the heap level. The `current is None` arm and
the else arm run `TranscriptSegment(text=segment.text, ...)` — a fresh
allocation copying the input's fields; the merge arm mutates the fields
of the object `current` points to, never the input object. -/
def mergeHeapStep (min_duration : ℚ) (max_chars : ℕ)
    (st : MergeHeapState) (r : ℕ) : MergeHeapState :=
  match st.current with
  | none =>
    let segment := readCue st.store r
    let alloc := allocCue st.store
      ⟨segment.text, segment.start_time, segment.end_time,
        segment.confidence⟩
    ⟨alloc.1, st.merged, some alloc.2⟩
  | some cRef =>
    let cur := readCue st.store cRef
    let segment := readCue st.store r
    let duration := cur.end_time - cur.start_time
    let combined_text := cur.text ++ " " ++ segment.text
    if duration < min_duration ∨
        (combined_text.length ≤ max_chars ∧
          segment.start_time - cur.end_time < 1) then
      ⟨st.store.set cRef
        { cur with
          text := combined_text
          end_time := segment.end_time }, st.merged, some cRef⟩
    else
      let alloc := allocCue st.store
        ⟨segment.text, segment.start_time, segment.end_time,
          segment.confidence⟩
      ⟨alloc.1, st.merged ++ [cRef], some alloc.2⟩

/-- Heap-level `_merge_short_segments`: takes the initial store and the
references of the input list's elements; returns the final store and the
references of the output list's elements. -/
def mergeShortSegmentsHeap (min_duration : ℚ) (max_chars : ℕ)
    (σ0 : Store) (inputs : List ℕ) : Store × List ℕ :=
  if inputs.isEmpty then (σ0, [])
  else
    let st := inputs.foldl (mergeHeapStep min_duration max_chars)
      ⟨σ0, [], none⟩
    match st.current with
    | none => (st.store, st.merged)
    | some cRef => (st.store, st.merged ++ [cRef])

/-! ## Helper lemmas -/

theorem ratFloor_eq (q : ℚ) : Rat.floor q = ⌊q⌋ := rfl

theorem string_join_nil : String.join [] = "" := rfl

theorem string_join_foldl (l : List String) (x : String) :
    l.foldl (fun r s => r ++ s) x = x ++ String.join l := by
  induction l generalizing x with
  | nil => simp [String.join, String.append_empty]
  | cons a t ih =>
    have h1 : (a :: t).foldl (fun r s => r ++ s) x = x ++ a ++ String.join t := by
      rw [List.foldl_cons, ih]
    have h2 : String.join (a :: t) = a ++ String.join t := by
      show (a :: t).foldl _ "" = _
      rw [List.foldl_cons, ih, String.empty_append]
    rw [h1, h2, String.append_assoc]

theorem string_join_cons (a : String) (l : List String) :
    String.join (a :: l) = a ++ String.join l := by
  show (a :: l).foldl _ "" = _
  rw [List.foldl_cons, string_join_foldl, String.empty_append]

theorem string_join_append (a b : List String) :
    String.join (a ++ b) = String.join a ++ String.join b := by
  show (a ++ b).foldl _ "" = _
  rw [List.foldl_append, string_join_foldl]
  rfl

theorem shouldFinalize_iff (d : ℚ) (text : String) (maxD : ℚ) (maxC : ℕ) :
    shouldFinalize d text maxD maxC = true ↔
      (maxD ≤ d ∨ maxC ≤ text.length ∨
        (endsWithMark text = true ∧ (10 < text.length ∨ 1 < d))) := by
  unfold shouldFinalize
  split_ifs with h1 h2 h3 h4 <;> simp_all

theorem groupStep_text (maxD : ℚ) (maxC : ℕ) (st : GroupState) (w : Word) :
    String.join (((groupStep maxD maxC st w).segments).map
        TranscriptSegment.text) ++
      String.join ((groupStep maxD maxC st w).current_words)
    = String.join ((st.segments).map TranscriptSegment.text) ++
        (String.join st.current_words ++ w.word) := by
  simp only [groupStep]
  split <;>
    simp [List.map_append, string_join_append, string_join_cons,
      string_join_nil, String.append_empty, String.empty_append,
      String.append_assoc]

theorem groupFold_text (maxD : ℚ) (maxC : ℕ) (ws : List Word) :
    ∀ st : GroupState,
    String.join (((ws.foldl (groupStep maxD maxC) st).segments).map
        TranscriptSegment.text) ++
      String.join ((ws.foldl (groupStep maxD maxC) st).current_words)
    = String.join ((st.segments).map TranscriptSegment.text) ++
        (String.join st.current_words ++ String.join (ws.map Word.word)) := by
  induction ws with
  | nil => intro st; simp [string_join_nil, String.append_empty]
  | cons w t ih =>
    intro st
    rw [List.foldl_cons, ih (groupStep maxD maxC st w),
      ← String.append_assoc, groupStep_text]
    simp [List.map_cons, string_join_cons, String.append_assoc]

/-! ## Claim theorems -/

/-- C1: WordGrouper finalize rule. After each token is appended (buffer
extended, running start the first token's start, running end the current
token's end), the accumulated cue is finalized exactly when
`running_duration ≥ max_duration`, or the concatenated text's length is
`≥ max_chars`, or the text ends with one of `。！？、` and additionally its
length exceeds 10 or the running duration exceeds 1.0 s (the if/elif
chain's boolean outcome); a finalized cue carries the buffered text, the
first token's start, the latest token's end, and confidence 1.0, and the
accumulator is then cleared. -/
theorem wordGrouper_finalize_rule (max_duration : ℚ) (max_chars : ℕ)
    (st : GroupState) (w : Word) :
    groupStep max_duration max_chars st w =
      (let cs := st.current_start.getD w.start
       let text := String.join (st.current_words ++ [w.word])
       let duration := w.endT - cs
       if max_duration ≤ duration ∨ max_chars ≤ text.length ∨
           (endsWithMark text = true ∧ (10 < text.length ∨ 1 < duration)) then
         ⟨st.segments ++ [⟨text, cs, w.endT, 1⟩], [], none, none⟩
       else
         ⟨st.segments, st.current_words ++ [w.word], some cs, some w.endT⟩) := by
  simp only [groupStep, shouldFinalize_iff]

/-- C5: WordGrouper never drops input. The concatenation of the texts of
all emitted cues equals the concatenation of all input token texts, with
no separators inserted and nothing removed (the trailing accumulator is
flushed after the stream ends). -/
theorem wordGrouper_never_drops_input (ws : List Word) (max_duration : ℚ)
    (max_chars : ℕ) :
    String.join ((createSegmentsFromWords ws max_duration max_chars).map
      TranscriptSegment.text) = String.join (ws.map Word.word) := by
  unfold createSegmentsFromWords
  by_cases hw : ws.isEmpty
  · rw [if_pos hw]
    rw [List.isEmpty_iff.mp hw]
    rfl
  · rw [if_neg hw]
    have h := groupFold_text max_duration max_chars ws ⟨[], [], none, none⟩
    simp only [string_join_nil, List.map_nil, String.empty_append] at h
    by_cases hcw :
        (ws.foldl (groupStep max_duration max_chars)
          ⟨[], [], none, none⟩).current_words.isEmpty
    · rw [if_pos hcw]
      rw [List.isEmpty_iff.mp hcw, string_join_nil, String.append_empty] at h
      exact h
    · rw [if_neg hcw]
      rw [List.map_append, string_join_append, List.map_cons, List.map_nil,
        string_join_cons, string_join_nil, String.append_empty]
      exact h

/-- C9 counterexample: the core performs no input validation. A token
with `end < start` flows straight through `_create_segments_from_words`
and is emitted as a cue with `end_time < start_time`, and a cue list that
is not time-ordered makes `_merge_short_segments` emit a merged cue with
`end_time < start_time`; neither function signals any error. -/
theorem malformed_input_not_rejected :
    createSegmentsFromWords [⟨"あ", 2, 1⟩] 5 80 = [⟨"あ", 2, 1, 1⟩] ∧
    mergeShortSegments 1 80 [⟨"a", 5, 6, 1⟩, ⟨"b", 0, 1, 1⟩] =
      [⟨"a b", 5, 1, 1⟩] ∧
    (1 : ℚ) < 2 ∧ (1 : ℚ) < 5 := by
  refine ⟨?_, ?_, by norm_num, by norm_num⟩
  · norm_num [createSegmentsFromWords, groupStep, shouldFinalize,
      endsWithMark, sentence_endings]
    simp +decide
  · norm_num [mergeShortSegments, mergeStep]
    simp +decide

/-- C9 amended: rather than rejecting malformed input, the core lets it
flow through. A single token becomes a cue with exactly the token's
(possibly inverted) offsets, and an out-of-order cue list is merged into
a cue whose end precedes its start, with no error raised anywhere. -/
theorem malformed_input_flows_through :
    (∀ (w : String) (s e : ℚ),
      createSegmentsFromWords [⟨w, s, e⟩] 5 80 = [⟨w, s, e, 1⟩]) ∧
    mergeShortSegments 1 80 [⟨"x", 3, 4, 1⟩, ⟨"y", 0, 1, 1⟩] =
      [⟨"x y", 3, 1, 1⟩] := by
  constructor
  · intro w s e
    rcases Bool.eq_false_or_eq_true
        (shouldFinalize (e - s) w 5 80) with hf | hf <;>
      simp [createSegmentsFromWords, groupStep, hf, string_join_cons,
        string_join_nil, String.append_empty]
  · norm_num [mergeShortSegments, mergeStep]
    simp +decide

theorem merge_fold_sweep (min_duration : ℚ) (max_chars : ℕ)
    (rest : List TranscriptSegment) :
    ∀ (m : List TranscriptSegment) (cur : TranscriptSegment),
    (match (rest.foldl (mergeStep min_duration max_chars)
        ⟨m, some cur⟩).current with
      | none => (rest.foldl (mergeStep min_duration max_chars)
          ⟨m, some cur⟩).merged
      | some c => (rest.foldl (mergeStep min_duration max_chars)
          ⟨m, some cur⟩).merged ++ [c])
    = m ++ mergeSweep min_duration max_chars cur rest := by
  induction rest with
  | nil => intro m cur; simp [mergeSweep]
  | cons segment t ih =>
    intro m cur
    rw [List.foldl_cons]
    show (match (t.foldl _ (mergeStep min_duration max_chars
        ⟨m, some cur⟩ segment)).current with
      | none => _ | some c => _) = _
    simp only [mergeStep, mergeSweep]
    by_cases hc : cur.end_time - cur.start_time < min_duration ∨
        ((cur.text ++ " " ++ segment.text).length ≤ max_chars ∧
          segment.start_time - cur.end_time < 1)
    · rw [if_pos hc, if_pos hc, ih]
    · rw [if_neg hc, if_neg hc, ih]
      simp

/-- C2: SegmentMerger merge rule. The fold-with-state implementation of
`_merge_short_segments` equals the single left-to-right sweep the spec
describes (`mergeSweep`): each subsequent cue is merged into the current
accumulator (text extended with exactly one inserted space, end set to
the cue's end) exactly when the current duration is `< min_duration`, or
the combined text length is `≤ max_chars` and the gap is `< 1.0`;
otherwise the accumulator is emitted and restarted from the cue, and the
final accumulator is emitted after the loop. -/
theorem segmentMerger_merge_rule (min_duration : ℚ) (max_chars : ℕ) :
    mergeShortSegments min_duration max_chars [] = [] ∧
    ∀ (s : TranscriptSegment) (rest : List TranscriptSegment),
      mergeShortSegments min_duration max_chars (s :: rest) =
        mergeSweep min_duration max_chars s rest := by
  refine ⟨rfl, fun s rest => ?_⟩
  have hstep : mergeStep min_duration max_chars ⟨[], none⟩ s =
      ⟨[], some s⟩ := rfl
  simp only [mergeShortSegments, List.isEmpty_cons, Bool.false_eq_true,
    if_false, List.foldl_cons, hstep, merge_fold_sweep, List.nil_append]

/-- C3 counterexample: with the default `max_retries = 3` and a
collaborator failing every attempt with a generic transient error, the
orchestrator performs exactly 3 collaborator invocations with backoff
sleeps of 1 s and 2 s, and raises the translation failure on the 3rd
occurrence of the error — not after sleeps `[1, 2, 4]` and not on a 4th
occurrence as claimed. -/
theorem retry_schedule_counterexample :
    translateBatchWithRetry (fun _ => Except.error "service unavailable") 3 =
      ⟨3, [1, 2], TransResult.translationFailure
        "Translation failed after 3 attempts: service unavailable"⟩ ∧
    (translateBatchWithRetry (fun _ => Except.error "service unavailable")
        3).sleeps ≠ [1, 2, 4] ∧
    (translateBatchWithRetry (fun _ => Except.error "service unavailable")
        3).calls ≠ 4 := by decide

/-- C3 amended: with `max_retries = 3`, when the collaborator fails every
attempt with a generic transient error (no quota/limit match), the
orchestrator sleeps `2^attempt` seconds between attempts (1 s then 2 s)
and raises a translation failure on the 3rd occurrence of the error,
carrying the 3rd attempt's message. -/
theorem transient_retry_schedule (m : ℕ → String)
    (hq : ∀ i, quotaMatch (m i) = false) :
    translateBatchWithRetry (fun i => Except.error (m i)) 3 =
      ⟨3, [1, 2], TransResult.translationFailure
        ("Translation failed after " ++ toString 3 ++ " attempts: " ++
          m 2)⟩ := by
  show retryLoop _ 3 3 0 0 [] = _
  simp [retryLoop, hq 0, hq 1, hq 2]

/-- C3 witness: the amended schedule at a concrete generic error. -/
theorem transient_retry_schedule_witness :
    translateBatchWithRetry (fun _ => Except.error "boom") 3 =
      ⟨3, [1, 2], TransResult.translationFailure
        ("Translation failed after " ++ toString 3 ++ " attempts: " ++
          "boom")⟩ :=
  transient_retry_schedule (fun _ => "boom")
    (by intro i; show quotaMatch "boom" = false; decide)

/-- C4: quota abort. On any attempt of the retry loop, if the
collaborator's error message matches the case-insensitive quota/limit
substring test, the loop returns the quota-exhaustion outcome
immediately: exactly one more collaborator invocation happened, the
backoff sleep list is left untouched (no backoff sleep), no further
retries run regardless of how many attempts remain, and the error is
never converted into a generic translation failure. -/
theorem quota_abort (call : ℕ → Except String (List String))
    (maxRetries remaining attempt calls : ℕ) (sleeps : List ℕ) (e : String)
    (hrem : 0 < remaining) (hcall : call attempt = Except.error e)
    (hq : quotaMatch e = true) :
    retryLoop call maxRetries remaining attempt calls sleeps =
      ⟨calls + 1, sleeps, TransResult.quotaExceeded
        ("Google Translate API quota exceeded: " ++ e)⟩ := by
  obtain ⟨r, rfl⟩ : ∃ r, remaining = r + 1 := ⟨remaining - 1, by omega⟩
  simp [retryLoop, hcall, hq]

/-- C4 witness: a mixed-case "LIMIT" message aborts on the very first
attempt with zero sleeps and a single collaborator call. -/
theorem quota_abort_witness :
    translateBatchWithRetry (fun _ => Except.error "Rate LIMIT reached") 3 =
      ⟨1, [], TransResult.quotaExceeded
        "Google Translate API quota exceeded: Rate LIMIT reached"⟩ :=
  quota_abort (fun _ => Except.error "Rate LIMIT reached") 3 3 0 0 []
    "Rate LIMIT reached" (by decide) rfl (by decide)

theorem rangeFrom_stop (step f start stop : ℕ)
    (h : ¬(0 < step ∧ start < stop)) :
    rangeFrom step f start stop = [] := by
  cases f <;> simp [rangeFrom, h]

theorem rangeFrom_fuel (step : ℕ) :
    ∀ (f g start stop : ℕ), stop - start ≤ f → stop - start ≤ g →
      rangeFrom step f start stop = rangeFrom step g start stop := by
  intro f
  induction f with
  | zero =>
    intro g start stop h1 h2
    rw [rangeFrom_stop step 0 start stop (fun hc => by omega),
      rangeFrom_stop step g start stop (fun hc => by omega)]
  | succ f ih =>
    intro g start stop h1 h2
    by_cases hc : 0 < step ∧ start < stop
    · obtain ⟨g', rfl⟩ : ∃ g', g = g' + 1 := ⟨g - 1, by omega⟩
      simp only [rangeFrom, if_pos hc]
      congr 1
      exact ih g' (start + step) stop (by omega) (by omega)
    · rw [rangeFrom_stop _ _ _ _ hc, rangeFrom_stop _ _ _ _ hc]

theorem rangeStep_unfold (start stop step : ℕ) :
    rangeStep start stop step =
      if 0 < step ∧ start < stop then
        start :: rangeStep (start + step) stop step
      else [] := by
  unfold rangeStep
  by_cases hc : 0 < step ∧ start < stop
  · obtain ⟨f, hf⟩ : ∃ f, stop - start = f + 1 := ⟨stop - start - 1, by omega⟩
    rw [hf, if_pos hc]
    simp only [rangeFrom, if_pos hc]
    congr 1
    exact rangeFrom_fuel step f (stop - (start + step)) (start + step) stop
      (by omega) (le_refl _)
  · rw [rangeFrom_stop _ _ _ _ hc, if_neg hc]

theorem rangeFrom_shift (step d : ℕ) :
    ∀ (f s stop : ℕ),
      rangeFrom step f (s + d) stop =
        (rangeFrom step f s (stop - d)).map (· + d) := by
  intro f
  induction f with
  | zero => intro s stop; simp [rangeFrom]
  | succ f ih =>
    intro s stop
    by_cases hc : 0 < step ∧ s < stop - d
    · have hc' : 0 < step ∧ s + d < stop := ⟨hc.1, by omega⟩
      simp only [rangeFrom, if_pos hc, if_pos hc', List.map_cons]
      rw [show s + d + step = s + step + d by omega, ih (s + step) stop]
    · have hc' : ¬(0 < step ∧ s + d < stop) := by
        intro h; exact hc ⟨h.1, by omega⟩
      simp only [rangeFrom, if_neg hc, if_neg hc', List.map_nil]

theorem rangeStep_shift (s stop step d : ℕ) :
    rangeStep (s + d) stop step =
      (rangeStep s (stop - d) step).map (· + d) := by
  unfold rangeStep
  rw [show stop - (s + d) = stop - d - s by omega]
  exact rangeFrom_shift step d (stop - d - s) s stop

theorem chunksGo_nil {γ : Type} (bs f : ℕ) :
    chunksGo bs f ([] : List γ) = [] := by
  cases f <;> rfl

theorem chunksGo_fuel {γ : Type} (bs : ℕ) (hbs : 0 < bs) :
    ∀ (f g : ℕ) (l : List γ), l.length ≤ f → l.length ≤ g →
      chunksGo bs f l = chunksGo bs g l := by
  intro f
  induction f with
  | zero =>
    intro g l h1 h2
    have : l = [] := List.length_eq_zero.mp (by omega)
    subst this
    rw [chunksGo_nil, chunksGo_nil]
  | succ f ih =>
    intro g l h1 h2
    cases l with
    | nil => rw [chunksGo_nil, chunksGo_nil]
    | cons a t =>
      obtain ⟨g', rfl⟩ : ∃ g', g = g' + 1 := ⟨g - 1, by simp at h2; omega⟩
      simp only [chunksGo, if_pos hbs]
      congr 1
      exact ih g' ((a :: t).drop bs) (by simp at h1 ⊢; omega)
        (by simp at h2 ⊢; omega)

theorem specChunks_nil {γ : Type} (bs : ℕ) :
    specChunks bs ([] : List γ) = [] := rfl

theorem specChunks_cons {γ : Type} (bs : ℕ) (hbs : 0 < bs) (a : γ)
    (t : List γ) :
    specChunks bs (a :: t) =
      (a :: t).take bs :: specChunks bs ((a :: t).drop bs) := by
  show chunksGo bs (t.length + 1) (a :: t) = _
  simp only [chunksGo, if_pos hbs]
  congr 1
  exact chunksGo_fuel bs hbs t.length ((a :: t).drop bs).length
    ((a :: t).drop bs) (by simp; omega) (le_refl _)

theorem rangeStep_chunks {γ : Type} (bs : ℕ) (hbs : 0 < bs) (l : List γ) :
    (rangeStep 0 l.length bs).map (fun i => (l.drop i).take bs) =
      specChunks bs l := by
  suffices h : ∀ (n : ℕ) (l : List γ), l.length ≤ n →
      (rangeStep 0 l.length bs).map (fun i => (l.drop i).take bs) =
        specChunks bs l from h l.length l (le_refl _)
  intro n
  induction n with
  | zero =>
    intro l hl
    have : l = [] := List.length_eq_zero.mp (by omega)
    subst this
    rw [rangeStep_unfold]
    simp [specChunks_nil]
  | succ n ih =>
    intro l hl
    cases l with
    | nil =>
      rw [rangeStep_unfold]
      simp [specChunks_nil]
    | cons a t =>
      rw [rangeStep_unfold,
        if_pos ⟨hbs, by simp⟩, specChunks_cons bs hbs]
      simp only [List.map_cons, List.drop_zero]
      congr 1
      rw [show (0 : ℕ) + bs = bs by omega,
        show rangeStep bs (a :: t).length bs =
          rangeStep (0 + bs) (a :: t).length bs by rw [Nat.zero_add],
        rangeStep_shift, List.map_map]
      have harg :
          ((fun i => ((a :: t).drop i).take bs) ∘ (· + bs)) =
            (fun j => (((a :: t).drop bs).drop j).take bs) := by
        funext j
        simp only [Function.comp_apply, List.drop_drop]
        rw [Nat.add_comm]
      rw [harg,
        show (a :: t).length - bs = ((a :: t).drop bs).length by
          simp]
      exact ih ((a :: t).drop bs) (by simp at hl ⊢; omega)

theorem specChunks_map {γ δ : Type} (bs : ℕ) (hbs : 0 < bs) (f : γ → δ)
    (l : List γ) :
    specChunks bs (l.map f) = (specChunks bs l).map (List.map f) := by
  suffices h : ∀ (n : ℕ) (l : List γ), l.length ≤ n →
      specChunks bs (l.map f) = (specChunks bs l).map (List.map f) from
    h l.length l (le_refl _)
  intro n
  induction n with
  | zero =>
    intro l hl
    have : l = [] := List.length_eq_zero.mp (by omega)
    subst this
    rfl
  | succ n ih =>
    intro l hl
    cases l with
    | nil => rfl
    | cons a t =>
      rw [List.map_cons, specChunks_cons bs hbs, specChunks_cons bs hbs,
        List.map_cons, ← List.map_cons f a t, ← List.map_take,
        ← List.map_drop]
      congr 1
      exact ih ((a :: t).drop bs) (by simp at hl ⊢; omega)

theorem specChunks_flatten {γ : Type} (bs : ℕ) (hbs : 0 < bs)
    (l : List γ) : (specChunks bs l).flatten = l := by
  suffices h : ∀ (n : ℕ) (l : List γ), l.length ≤ n →
      (specChunks bs l).flatten = l from h l.length l (le_refl _)
  intro n
  induction n with
  | zero =>
    intro l hl
    have : l = [] := List.length_eq_zero.mp (by omega)
    subst this
    rfl
  | succ n ih =>
    intro l hl
    cases l with
    | nil => rfl
    | cons a t =>
      rw [specChunks_cons bs hbs, List.flatten_cons,
        ih ((a :: t).drop bs) (by simp at hl ⊢; omega),
        List.take_append_drop]

theorem foldl_append_pair {α β : Type} (g1 : ℕ → List α) (g2 : ℕ → List β) :
    ∀ (idxs : List ℕ) (a : List (List α)) (b : List β),
      idxs.foldl (fun acc i => (acc.1 ++ [g1 i], acc.2 ++ g2 i)) (a, b) =
        (a ++ idxs.map g1, b ++ (idxs.map g2).flatten) := by
  intro idxs
  induction idxs with
  | nil => intro a b; simp
  | cons i t ih =>
    intro a b
    rw [List.foldl_cons, ih]
    simp [List.append_assoc]

theorem zip_mk_projections :
    ∀ (b : List TranscriptSegment) (c : List String), c.length = b.length →
      ((b.zip c).map (fun p => TranscriptSegment.mk p.2 p.1.start_time
          p.1.end_time p.1.confidence)).map TranscriptSegment.text = c ∧
      ((b.zip c).map (fun p => TranscriptSegment.mk p.2 p.1.start_time
          p.1.end_time p.1.confidence)).map TranscriptSegment.start_time =
        b.map TranscriptSegment.start_time ∧
      ((b.zip c).map (fun p => TranscriptSegment.mk p.2 p.1.start_time
          p.1.end_time p.1.confidence)).map TranscriptSegment.end_time =
        b.map TranscriptSegment.end_time ∧
      ((b.zip c).map (fun p => TranscriptSegment.mk p.2 p.1.start_time
          p.1.end_time p.1.confidence)).map TranscriptSegment.confidence =
        b.map TranscriptSegment.confidence := by
  intro b
  induction b with
  | nil =>
    intro c hc
    have : c = [] := List.length_eq_zero.mp (by simpa using hc)
    subst this
    simp
  | cons s t ih =>
    intro c hc
    cases c with
    | nil => simp at hc
    | cons x cs =>
      have := ih cs (by simpa using hc)
      simp [List.zip_cons_cons, this]

/-- C6: translation batching and timing preservation. `translate_segments`
partitions the cue list into contiguous chunks of at most `batch_size` in
order (last chunk possibly shorter), issues exactly one collaborator call
per chunk in order, and returns new cue instances whose start, end and
confidence equal the corresponding input cue's and whose text is the
positionally corresponding translated string; empty input yields empty
output with zero collaborator calls, and 5 cues with `batch_size = 2`
yield exactly 3 calls of sizes `[2, 2, 1]`. -/
theorem batch_translation_spec (collab : List String → List String)
    (batchSize : ℕ) (segments : List TranscriptSegment)
    (hbs : 0 < batchSize)
    (hlen : ∀ ts, (collab ts).length = ts.length) :
    (translateSegments collab batchSize segments).1 =
      specChunks batchSize (segments.map TranscriptSegment.text) ∧
    (translateSegments collab batchSize segments).2.map
        TranscriptSegment.start_time =
      segments.map TranscriptSegment.start_time ∧
    (translateSegments collab batchSize segments).2.map
        TranscriptSegment.end_time =
      segments.map TranscriptSegment.end_time ∧
    (translateSegments collab batchSize segments).2.map
        TranscriptSegment.confidence =
      segments.map TranscriptSegment.confidence ∧
    (translateSegments collab batchSize segments).2.map
        TranscriptSegment.text =
      ((specChunks batchSize (segments.map TranscriptSegment.text)).map
        collab).flatten ∧
    translateSegments collab batchSize [] = ([], []) ∧
    (segments.length = 5 → batchSize = 2 →
      (translateSegments collab batchSize segments).1.map List.length =
        [2, 2, 1]) := by
  have hchunkfix : ∀ b : List TranscriptSegment,
      (collab (b.map (fun seg => seg.text))).length = b.length := by
    intro b; rw [hlen, List.length_map]
  by_cases hseg : segments.isEmpty = true
  · have hnil : segments = [] := by simpa using hseg
    subst hnil
    refine ⟨rfl, rfl, rfl, rfl, rfl, rfl, ?_⟩
    intro h5
    simp at h5
  · have key : translateSegments collab batchSize segments =
        ((specChunks batchSize segments).map
            (fun b => b.map (fun seg => seg.text)),
          ((specChunks batchSize segments).map (fun b =>
            (b.zip (collab (b.map (fun seg => seg.text)))).map
              (fun p => TranscriptSegment.mk p.2 p.1.start_time
                p.1.end_time p.1.confidence))).flatten) := by
      simp only [translateSegments, if_neg hseg]
      rw [foldl_append_pair
        (fun i => ((segments.drop i).take batchSize).map
          (fun seg => seg.text))
        (fun i => (((segments.drop i).take batchSize).zip
          (collab (((segments.drop i).take batchSize).map
            (fun seg => seg.text)))).map
          (fun p => TranscriptSegment.mk p.2 p.1.start_time p.1.end_time
            p.1.confidence))]
      rw [List.nil_append, List.nil_append]
      simp only [Prod.mk.injEq]
      constructor
      · rw [show (fun i => ((segments.drop i).take batchSize).map
            (fun seg : TranscriptSegment => seg.text)) =
              (fun b : List TranscriptSegment =>
                b.map (fun seg => seg.text)) ∘
                (fun i => (segments.drop i).take batchSize) from rfl,
          ← List.map_map, rangeStep_chunks batchSize hbs]
      · rw [show (fun i => (((segments.drop i).take batchSize).zip
            (collab (((segments.drop i).take batchSize).map
              (fun seg => seg.text)))).map
            (fun p => TranscriptSegment.mk p.2 p.1.start_time p.1.end_time
              p.1.confidence)) =
              (fun b : List TranscriptSegment =>
                (b.zip (collab (b.map (fun seg => seg.text)))).map
                  (fun p => TranscriptSegment.mk p.2 p.1.start_time
                    p.1.end_time p.1.confidence)) ∘
                (fun i => (segments.drop i).take batchSize) from rfl,
          ← List.map_map, rangeStep_chunks batchSize hbs]
    refine ⟨?_, ?_, ?_, ?_, ?_, rfl, ?_⟩
    · rw [key]
      exact (specChunks_map batchSize hbs TranscriptSegment.text
        segments).symm
    · rw [key]
      show (((specChunks batchSize segments).map _).flatten).map _ = _
      rw [List.map_flatten, List.map_map]
      have hcomp : (List.map TranscriptSegment.start_time ∘
          (fun b : List TranscriptSegment =>
            (b.zip (collab (b.map (fun seg => seg.text)))).map
              (fun p => TranscriptSegment.mk p.2 p.1.start_time
                p.1.end_time p.1.confidence))) =
          List.map TranscriptSegment.start_time :=
        by
          funext b
          exact (zip_mk_projections b
            (collab (b.map (fun seg => seg.text))) (hchunkfix b)).2.1
      rw [hcomp, ← specChunks_map batchSize hbs,
        specChunks_flatten batchSize hbs]
    · rw [key]
      show (((specChunks batchSize segments).map _).flatten).map _ = _
      rw [List.map_flatten, List.map_map]
      have hcomp : (List.map TranscriptSegment.end_time ∘
          (fun b : List TranscriptSegment =>
            (b.zip (collab (b.map (fun seg => seg.text)))).map
              (fun p => TranscriptSegment.mk p.2 p.1.start_time
                p.1.end_time p.1.confidence))) =
          List.map TranscriptSegment.end_time :=
        by
          funext b
          exact (zip_mk_projections b
            (collab (b.map (fun seg => seg.text))) (hchunkfix b)).2.2.1
      rw [hcomp, ← specChunks_map batchSize hbs,
        specChunks_flatten batchSize hbs]
    · rw [key]
      show (((specChunks batchSize segments).map _).flatten).map _ = _
      rw [List.map_flatten, List.map_map]
      have hcomp : (List.map TranscriptSegment.confidence ∘
          (fun b : List TranscriptSegment =>
            (b.zip (collab (b.map (fun seg => seg.text)))).map
              (fun p => TranscriptSegment.mk p.2 p.1.start_time
                p.1.end_time p.1.confidence))) =
          List.map TranscriptSegment.confidence :=
        by
          funext b
          exact (zip_mk_projections b
            (collab (b.map (fun seg => seg.text))) (hchunkfix b)).2.2.2
      rw [hcomp, ← specChunks_map batchSize hbs,
        specChunks_flatten batchSize hbs]
    · rw [key]
      show (((specChunks batchSize segments).map _).flatten).map _ = _
      rw [List.map_flatten, List.map_map]
      have hcomp : (List.map TranscriptSegment.text ∘
          (fun b : List TranscriptSegment =>
            (b.zip (collab (b.map (fun seg => seg.text)))).map
              (fun p => TranscriptSegment.mk p.2 p.1.start_time
                p.1.end_time p.1.confidence))) =
          (fun b : List TranscriptSegment =>
            collab (b.map (fun seg => seg.text))) :=
        by
          funext b
          exact (zip_mk_projections b
            (collab (b.map (fun seg => seg.text))) (hchunkfix b)).1
      rw [hcomp, specChunks_map batchSize hbs, List.map_map]
      rfl
    · intro h5 hbs2
      subst hbs2
      rw [key]
      show ((specChunks 2 segments).map _).map List.length = _
      rw [List.map_map]
      have hlenmap : (List.length ∘ (fun b : List TranscriptSegment =>
          b.map (fun seg => seg.text))) = List.length :=
        funext fun b => List.length_map b _
      rw [hlenmap]
      clear key hseg
      rcases segments with _ | ⟨a, _ | ⟨b, _ | ⟨c, _ | ⟨d, _ | ⟨e, rest⟩⟩⟩⟩⟩ <;>
        simp at h5 ⊢
      subst h5
      simp [specChunks, chunksGo]

/-- C6 witness: 5 concrete cues with `batch_size = 2` give exactly 3
collaborator calls of sizes `[2, 2, 1]`. -/
theorem batch_translation_spec_witness :
    (translateSegments (fun ts => ts.map (fun s => s ++ "-zh")) 2
      [⟨"a", 0, 1, 1⟩, ⟨"b", 1, 2, 1⟩, ⟨"c", 2, 3, 1⟩, ⟨"d", 3, 4, 1⟩,
        ⟨"e", 4, 5, 1⟩]).1.map List.length = [2, 2, 1] :=
  (batch_translation_spec (fun ts => ts.map (fun s => s ++ "-zh")) 2
    [⟨"a", 0, 1, 1⟩, ⟨"b", 1, 2, 1⟩, ⟨"c", 2, 3, 1⟩, ⟨"d", 3, 4, 1⟩,
      ⟨"e", 4, 5, 1⟩] (by decide)
    (fun ts => by simp)).2.2.2.2.2.2 rfl rfl

theorem pyTrunc_intCast (k : ℤ) : pyTrunc (k : ℚ) = k := by
  unfold pyTrunc
  split_ifs with h
  · have hneg : (-(k : ℚ)) = ((-k : ℤ) : ℚ) := by push_cast; ring
    rw [ratFloor_eq, hneg, Int.floor_intCast]
    ring
  · rw [ratFloor_eq, Int.floor_intCast]

theorem pyTrunc_of_nonneg (a : ℚ) (h : 0 ≤ a) : pyTrunc a = ⌊a⌋ := by
  unfold pyTrunc
  rw [if_neg (not_lt.2 h), ratFloor_eq]

theorem pyFloorDiv_eq_floor (a b : ℚ) : pyFloorDiv a b = (⌊a / b⌋ : ℚ) := by
  unfold pyFloorDiv
  rw [ratFloor_eq]

theorem pyMod_eq (a b : ℚ) : pyMod a b = a - b * (⌊a / b⌋ : ℚ) := by
  unfold pyMod
  rw [pyFloorDiv_eq_floor]

theorem int_floor_div_int (q : ℚ) (d : ℤ) (hd : 0 < d) :
    ⌊q / (d : ℚ)⌋ = ⌊q⌋ / d := by
  have hd' : (0 : ℚ) < (d : ℚ) := by exact_mod_cast hd
  apply le_antisymm
  · rw [Int.le_ediv_iff_mul_le hd]
    apply Int.le_floor.mpr
    have h1 : (⌊q / (d : ℚ)⌋ : ℚ) * d ≤ q / d * d :=
      mul_le_mul_of_nonneg_right (Int.floor_le _) hd'.le
    rw [div_mul_cancel₀ q (ne_of_gt hd')] at h1
    push_cast
    exact h1
  · rw [Int.le_floor]
    rw [le_div_iff₀ hd']
    have h2 : ⌊q⌋ / d * d ≤ ⌊q⌋ := by
      have hdm := Int.ediv_add_emod ⌊q⌋ d
      have hm := Int.emod_nonneg ⌊q⌋ (ne_of_gt hd)
      have : ⌊q⌋ / d * d = d * (⌊q⌋ / d) := by ring
      omega
    calc ((⌊q⌋ / d : ℤ) : ℚ) * (d : ℚ) = ((⌊q⌋ / d * d : ℤ) : ℚ) := by
          push_cast; ring
    _ ≤ (⌊q⌋ : ℚ) := by exact_mod_cast h2
    _ ≤ q := Int.floor_le q

theorem pyMod_nonneg (a b : ℚ) (hb : 0 < b) : 0 ≤ pyMod a b := by
  rw [pyMod_eq]
  have h1 : (⌊a / b⌋ : ℚ) * b ≤ a / b * b :=
    mul_le_mul_of_nonneg_right (Int.floor_le _) hb.le
  rw [div_mul_cancel₀ a (ne_of_gt hb)] at h1
  nlinarith [h1]

theorem formatTimestamp_eq_specTimestamp (s : ℚ) :
    formatTimestamp s = specTimestamp s := by
  have h36 : (3600 : ℚ) = ((3600 : ℤ) : ℚ) := by norm_num
  have h60 : (60 : ℚ) = ((60 : ℤ) : ℚ) := by norm_num
  have hh : ⌊s / (3600 : ℚ)⌋ = ⌊s⌋ / 3600 := by
    rw [h36]; exact int_floor_div_int s 3600 (by norm_num)
  have hm1 : ⌊pyMod s 3600⌋ = ⌊s⌋ % 3600 := by
    rw [pyMod_eq]
    have hc : (3600 : ℚ) * ((⌊s / (3600 : ℚ)⌋ : ℤ) : ℚ) =
        ((3600 * ⌊s / (3600 : ℚ)⌋ : ℤ) : ℚ) := by push_cast; ring
    rw [hc, Int.floor_sub_int, hh, Int.emod_def]
  have hmin : ⌊pyMod s 3600 / (60 : ℚ)⌋ = ⌊s⌋ % 3600 / 60 := by
    rw [h60, int_floor_div_int _ 60 (by norm_num), hm1]
  have hs60 : ⌊s / (60 : ℚ)⌋ = ⌊s⌋ / 60 := by
    rw [h60]; exact int_floor_div_int s 60 (by norm_num)
  have hsec : ⌊pyMod s 60⌋ = ⌊s⌋ % 60 := by
    rw [pyMod_eq]
    have hc : (60 : ℚ) * ((⌊s / (60 : ℚ)⌋ : ℤ) : ℚ) =
        ((60 * ⌊s / (60 : ℚ)⌋ : ℤ) : ℚ) := by push_cast; ring
    rw [hc, Int.floor_sub_int, hs60, Int.emod_def]
  have hmod1 : pyMod s 1 = s - (⌊s⌋ : ℚ) := by
    rw [pyMod_eq, div_one]
    ring
  have hmn2 : 0 ≤ pyMod s 60 := pyMod_nonneg s 60 (by norm_num)
  have hmn3 : 0 ≤ pyMod s 1 := pyMod_nonneg s 1 (by norm_num)
  simp only [formatTimestamp, specTimestamp]
  rw [pyFloorDiv_eq_floor s 3600, pyTrunc_intCast, hh,
    pyFloorDiv_eq_floor (pyMod s 3600) 60, pyTrunc_intCast, hmin,
    pyTrunc_of_nonneg (pyMod s 60) hmn2, hsec,
    pyTrunc_of_nonneg (pyMod s 1 * 1000)
      (mul_nonneg hmn3 (by norm_num)), hmod1]

/-- C8: timestamp codec. For every seconds value, `_format_timestamp`
produces `HH:MM:SS,mmm` where hours, minutes and whole seconds come from
integer floor division/modulo of the whole-second part (hours zero-padded
to 2 digits but unbounded, minutes and seconds always 2 digits) and
milliseconds is the truncation — not rounding — of the fractional-second
component times 1000 zero-padded to 3 digits (`specTimestamp`); in
particular `format 0 = "00:00:00,000"`, `format 3661.5 = "01:01:01,500"`,
`format 7322.25 = "02:02:02,250"`, 25 h is not capped, and `0.9995` s
truncates to `999` ms. -/
theorem timestamp_codec_spec :
    (∀ s : ℚ, formatTimestamp s = specTimestamp s) ∧
    formatTimestamp 0 = "00:00:00,000" ∧
    formatTimestamp 3661.5 = "01:01:01,500" ∧
    formatTimestamp 7322.25 = "02:02:02,250" ∧
    formatTimestamp 90000 = "25:00:00,000" ∧
    formatTimestamp (1999 / 2000) = "00:00:00,999" := by
  refine ⟨formatTimestamp_eq_specTimestamp, ?_, ?_, ?_, ?_, ?_⟩
  · rw [formatTimestamp_eq_specTimestamp]
    have hn : ⌊(0 : ℚ)⌋ = 0 := by norm_num
    simp only [specTimestamp, hn]
    norm_num
    decide
  · rw [formatTimestamp_eq_specTimestamp]
    have hn : ⌊(3661.5 : ℚ)⌋ = 3661 := by norm_num [Int.floor_eq_iff]
    have hms : ⌊((3661.5 : ℚ) - ((3661 : ℤ) : ℚ)) * 1000⌋ = 500 := by
      norm_num [Int.floor_eq_iff]
    simp only [specTimestamp, hn, hms]
    decide
  · rw [formatTimestamp_eq_specTimestamp]
    have hn : ⌊(7322.25 : ℚ)⌋ = 7322 := by norm_num [Int.floor_eq_iff]
    have hms : ⌊((7322.25 : ℚ) - ((7322 : ℤ) : ℚ)) * 1000⌋ = 250 := by
      norm_num [Int.floor_eq_iff]
    simp only [specTimestamp, hn, hms]
    decide
  · rw [formatTimestamp_eq_specTimestamp]
    have hn : ⌊(90000 : ℚ)⌋ = 90000 := by norm_num [Int.floor_eq_iff]
    have hms : ⌊((90000 : ℚ) - ((90000 : ℤ) : ℚ)) * 1000⌋ = 0 := by
      norm_num [Int.floor_eq_iff]
    simp only [specTimestamp, hn, hms]
    decide
  · rw [formatTimestamp_eq_specTimestamp]
    have hn : ⌊(1999 / 2000 : ℚ)⌋ = 0 := by norm_num [Int.floor_eq_iff]
    have hms : ⌊((1999 / 2000 : ℚ) - ((0 : ℤ) : ℚ)) * 1000⌋ = 999 := by
      norm_num [Int.floor_eq_iff]
    simp only [specTimestamp, hn, hms]
    decide

/-- C7: at the claim's own example input, `generate_srt` does NOT write
one block per input cue: `_merge_short_segments` (which `generate_srt`
always runs first) merges the two cues (gap 0.5 s < 1.0 s, combined
length 11 ≤ 80), so the file content is a single block with the merged
text and the widened time range; the claimed first block's timestamp line
does not occur in it. The per-cue block serialization itself (`srtText`,
the loop body of `generate_srt`) does produce exactly the two claimed
blocks — the divergence is the merge pass, contradicting the repository's
own test `test_generate_srt_basic`. -/
theorem generate_srt_merges_example :
    generateSrtContent 1 80
      [⟨"第一行字幕", 1, 4.5, 1⟩, ⟨"第二行字幕", 5, 8.75, 1⟩] =
      "1\n00:00:01,000 --> 00:00:08,750\n第一行字幕 第二行字幕\n\n" ∧
    srtText [⟨"第一行字幕", 1, 4.5, 1⟩, ⟨"第二行字幕", 5, 8.75, 1⟩] =
      "1\n00:00:01,000 --> 00:00:04,500\n第一行字幕\n\n" ++
        "2\n00:00:05,000 --> 00:00:08,750\n第二行字幕\n\n" ∧
    hasSubstr "00:00:01,000 --> 00:00:04,500".data
      (generateSrtContent 1 80
        [⟨"第一行字幕", 1, 4.5, 1⟩, ⟨"第二行字幕", 5, 8.75, 1⟩]).data =
      false := by
  have e1 : formatTimestamp 1 = "00:00:01,000" := by
    rw [formatTimestamp_eq_specTimestamp]
    have hn : ⌊(1 : ℚ)⌋ = 1 := by norm_num [Int.floor_eq_iff]
    have hms : ⌊((1 : ℚ) - ((1 : ℤ) : ℚ)) * 1000⌋ = 0 := by
      norm_num [Int.floor_eq_iff]
    simp only [specTimestamp, hn, hms]
    decide
  have e45 : formatTimestamp 4.5 = "00:00:04,500" := by
    rw [formatTimestamp_eq_specTimestamp]
    have hn : ⌊(4.5 : ℚ)⌋ = 4 := by norm_num [Int.floor_eq_iff]
    have hms : ⌊((4.5 : ℚ) - ((4 : ℤ) : ℚ)) * 1000⌋ = 500 := by
      norm_num [Int.floor_eq_iff]
    simp only [specTimestamp, hn, hms]
    decide
  have e5 : formatTimestamp 5 = "00:00:05,000" := by
    rw [formatTimestamp_eq_specTimestamp]
    have hn : ⌊(5 : ℚ)⌋ = 5 := by norm_num [Int.floor_eq_iff]
    have hms : ⌊((5 : ℚ) - ((5 : ℤ) : ℚ)) * 1000⌋ = 0 := by
      norm_num [Int.floor_eq_iff]
    simp only [specTimestamp, hn, hms]
    decide
  have e875 : formatTimestamp 8.75 = "00:00:08,750" := by
    rw [formatTimestamp_eq_specTimestamp]
    have hn : ⌊(8.75 : ℚ)⌋ = 8 := by norm_num [Int.floor_eq_iff]
    have hms : ⌊((8.75 : ℚ) - ((8 : ℤ) : ℚ)) * 1000⌋ = 750 := by
      norm_num [Int.floor_eq_iff]
    simp only [specTimestamp, hn, hms]
    decide
  have hmerge : mergeShortSegments 1 80
      [⟨"第一行字幕", 1, 4.5, 1⟩, ⟨"第二行字幕", 5, 8.75, 1⟩] =
      [⟨"第一行字幕 第二行字幕", 1, 8.75, 1⟩] := by
    norm_num [mergeShortSegments, mergeStep]
    simp +decide
  refine ⟨?_, ?_, ?_⟩
  · simp only [generateSrtContent, hmerge, srtText, List.enumFrom,
      List.map, cueBlock, e1, e875]
    decide
  · simp only [srtText, List.enumFrom, List.map, cueBlock, e1, e45, e5,
      e875]
    decide
  · simp only [generateSrtContent, hmerge, srtText, List.enumFrom,
      List.map, cueBlock, e1, e875]
    decide

theorem readCue_set_ne (l : Store) (j : ℕ) (v : TranscriptSegment) (i : ℕ)
    (hne : j ≠ i) : readCue (l.set j v) i = readCue l i := by
  unfold readCue
  rw [List.getD_eq_getElem?_getD, List.getD_eq_getElem?_getD,
    List.getElem?_set_ne hne]

theorem readCue_append_left (l l' : Store) (i : ℕ) (hi : i < l.length) :
    readCue (l ++ l') i = readCue l i := by
  unfold readCue
  rw [List.getD_append _ _ _ _ hi]

theorem mergeHeapStep_inv (minD : ℚ) (maxC : ℕ) (σ0 : Store)
    (st : MergeHeapState) (r : ℕ)
    (h1 : σ0.length ≤ st.store.length)
    (h2 : ∀ i, i < σ0.length → readCue st.store i = readCue σ0 i)
    (h3 : ∀ c ∈ st.merged, σ0.length ≤ c)
    (h4 : ∀ c, st.current = some c →
      σ0.length ≤ c ∧ c < st.store.length) :
    σ0.length ≤ (mergeHeapStep minD maxC st r).store.length ∧
    (∀ i, i < σ0.length →
      readCue (mergeHeapStep minD maxC st r).store i = readCue σ0 i) ∧
    (∀ c ∈ (mergeHeapStep minD maxC st r).merged, σ0.length ≤ c) ∧
    (∀ c, (mergeHeapStep minD maxC st r).current = some c →
      σ0.length ≤ c ∧ c < (mergeHeapStep minD maxC st r).store.length) := by
  obtain ⟨store, merged, current⟩ := st
  cases current with
  | none =>
    simp only [mergeHeapStep, allocCue]
    refine ⟨by simp at h1 ⊢; omega, ?_, h3, ?_⟩
    · intro i hi
      rw [readCue_append_left _ _ _ (by simp at h1; omega)]
      exact h2 i hi
    · intro c hc
      simp only [Option.some.injEq] at hc
      subst hc
      simp at h1 ⊢
      omega
  | some cRef =>
    obtain ⟨hc1, hc2⟩ := h4 cRef rfl
    simp only [mergeHeapStep]
    split
    · refine ⟨by simpa using h1, ?_, h3, ?_⟩
      · intro i hi
        rw [readCue_set_ne _ _ _ _ (by simp at hc1 ⊢; omega)]
        exact h2 i hi
      · intro c hc
        simp only [Option.some.injEq] at hc
        subst hc
        simpa using ⟨hc1, hc2⟩
    · simp only [allocCue]
      refine ⟨by simp at h1 ⊢; omega, ?_, ?_, ?_⟩
      · intro i hi
        rw [readCue_append_left _ _ _ (by simp at h1; omega)]
        exact h2 i hi
      · intro c hc
        rcases List.mem_append.mp hc with hcm | hcm
        · exact h3 c hcm
        · simp only [List.mem_singleton] at hcm
          subst hcm
          exact hc1
      · intro c hc
        simp only [Option.some.injEq] at hc
        subst hc
        simp at h1 ⊢
        omega

theorem mergeHeapFold_inv (minD : ℚ) (maxC : ℕ) (σ0 : Store) :
    ∀ (l : List ℕ) (st : MergeHeapState),
    σ0.length ≤ st.store.length →
    (∀ i, i < σ0.length → readCue st.store i = readCue σ0 i) →
    (∀ c ∈ st.merged, σ0.length ≤ c) →
    (∀ c, st.current = some c → σ0.length ≤ c ∧ c < st.store.length) →
    σ0.length ≤ (l.foldl (mergeHeapStep minD maxC) st).store.length ∧
    (∀ i, i < σ0.length →
      readCue (l.foldl (mergeHeapStep minD maxC) st).store i =
        readCue σ0 i) ∧
    (∀ c ∈ (l.foldl (mergeHeapStep minD maxC) st).merged,
      σ0.length ≤ c) ∧
    (∀ c, (l.foldl (mergeHeapStep minD maxC) st).current = some c →
      σ0.length ≤ c ∧
        c < (l.foldl (mergeHeapStep minD maxC) st).store.length) := by
  intro l
  induction l with
  | nil => intro st h1 h2 h3 h4; exact ⟨h1, h2, h3, h4⟩
  | cons r t ih =>
    intro st h1 h2 h3 h4
    rw [List.foldl_cons]
    obtain ⟨g1, g2, g3, g4⟩ := mergeHeapStep_inv minD maxC σ0 st r h1 h2 h3 h4
    exact ih (mergeHeapStep minD maxC st r) g1 g2 g3 g4

/-- C10: SegmentMerger does not mutate its input. In the heap model of
`_merge_short_segments` (objects in an allocation store, references into
it), every object that existed before the call — in particular every
input cue — is unchanged in the final store, and every reference in the
output list points to a freshly allocated object: merged text and
extended end times live only in fresh copies. -/
theorem segmentMerger_no_input_mutation (min_duration : ℚ)
    (max_chars : ℕ) (σ0 : Store) (inputs : List ℕ) :
    (∀ r, r < σ0.length →
      readCue (mergeShortSegmentsHeap min_duration max_chars σ0 inputs).1
        r = readCue σ0 r) ∧
    (∀ r, r ∈ (mergeShortSegmentsHeap min_duration max_chars σ0 inputs).2 →
      σ0.length ≤ r) := by
  unfold mergeShortSegmentsHeap
  by_cases hin : inputs.isEmpty = true
  · rw [if_pos hin]
    exact ⟨fun r _ => rfl, fun r hr => by simp at hr⟩
  · rw [if_neg hin]
    obtain ⟨g1, g2, g3, g4⟩ := mergeHeapFold_inv min_duration max_chars σ0
      inputs ⟨σ0, [], none⟩ (le_refl _) (fun i _ => rfl) (by simp)
      (by simp)
    rcases hcur : (inputs.foldl (mergeHeapStep min_duration max_chars)
        (⟨σ0, [], none⟩ : MergeHeapState)).current with _ | c
    · simp only [hcur]
      exact ⟨fun r hr => g2 r hr, fun r hr => g3 r hr⟩
    · simp only [hcur]
      refine ⟨fun r hr => g2 r hr, fun r hr => ?_⟩
      rcases List.mem_append.mp hr with hm | hm
      · exact g3 r hm
      · simp only [List.mem_singleton] at hm
        subst hm
        exact (g4 r hcur).1

/-- C10 witness: with a concrete two-object store, the first input cue is
unchanged by the heap-level merge pass. -/
theorem segmentMerger_no_input_mutation_witness :
    readCue (mergeShortSegmentsHeap 1 80
      [⟨"a", 0, 1, 1⟩, ⟨"b", 1, 2, 1⟩] [0, 1]).1 0 =
      readCue [⟨"a", 0, 1, 1⟩, ⟨"b", 1, 2, 1⟩] 0 :=
  (segmentMerger_no_input_mutation 1 80
    [⟨"a", 0, 1, 1⟩, ⟨"b", 1, 2, 1⟩] [0, 1]).1 0 (by decide)
